import Mathlib

/-!
Verification of the `linewriter` package: a line-buffering writer
(`LineWriter`) that wraps a `bufio.Writer` over an arbitrary byte sink
(`io.Writer`) and flushes the buffer whenever a newline byte (0x0a) is
written, in addition to the capacity-triggered flushes of the underlying
buffered writer.

Bytes are modelled as `Nat`, byte sequences as `List Nat`.  The sink
(`io.Writer`) is modelled as a state machine driven by a finite script of
responses; an empty script means the sink accepts every write (a "healthy"
sink).  The model of the sink enforces the `io.Writer` contract: the
reported count is at most the length of the argument, and a `nil` error
implies the whole argument was accepted.
-/

/-- The newline byte, as in the source: `const newline = 0x0a`. -/
def newline : Nat := 0x0a

/-- Errors that can surface from the writer: an error produced by the sink
(tagged with a numeric code), or `io.ErrShortWrite` produced inside the
buffered writer's flush. -/
inductive Err where
  | sinkErr (code : Nat)
  | shortWrite
  deriving DecidableEq, Repr

/-- One scripted response of the sink to a single `Write` call: `ok` accepts
the whole argument; `fail k c` accepts at most `k` bytes and reports the
error with code `c`. -/
inductive SinkResp where
  | ok
  | fail (accepted : Nat) (code : Nat)
  deriving DecidableEq, Repr

/-- The sink: the remaining response script (empty script = accept
everything from now on, i.e. a healthy sink) and the chunks received so
far, one entry per `Write` call made on the sink. -/
structure SinkState where
  script : List SinkResp
  received : List (List Nat)
  deriving DecidableEq, Repr

/-- One `Write` call on the sink.  Returns the accepted count, the error,
and the new sink state.  A `nil` error implies full acceptance, and the
count never exceeds the argument's length (the `io.Writer` contract). -/
def sinkWrite (s : SinkState) (p : List Nat) : Nat × Option Err × SinkState :=
  match s.script with
  | [] => (p.length, none, ⟨[], s.received ++ [p]⟩)
  | .ok :: rest => (p.length, none, ⟨rest, s.received ++ [p]⟩)
  | .fail k c :: rest =>
      (min k p.length, some (.sinkErr c), ⟨rest, s.received ++ [p.take (min k p.length)]⟩)

/-- Model of Go's `bufio.Writer`: a capacity, the buffered bytes
(`b.buf[0:b.n]`), and the sticky error `b.err`. -/
structure BWriter where
  cap : Nat
  buf : List Nat
  err : Option Err
  deriving DecidableEq, Repr

/-- Free space in the buffer, `b.Available()`. -/
def BWriter.available (b : BWriter) : Nat := b.cap - b.buf.length

/-- Model of `bufio.Writer.Flush`: returns the sticky error if set; does
nothing on an empty buffer; otherwise writes the buffered bytes to the
sink, turning a short write with a `nil` error into `ErrShortWrite`,
dropping the accepted bytes and recording the error on failure, and
emptying the buffer on success. -/
def bufioFlush (b : BWriter) (s : SinkState) : Option Err × BWriter × SinkState :=
  match b.err with
  | some e => (some e, b, s)
  | none =>
    if b.buf.length = 0 then (none, b, s)
    else
      let r := sinkWrite s b.buf
      let n := r.1
      let e := if n < b.buf.length ∧ r.2.1 = none then some Err.shortWrite else r.2.1
      match e with
      | some e0 => (some e0, { b with buf := b.buf.drop n, err := some e0 }, r.2.2)
      | none => (none, { b with buf := [] }, r.2.2)

/-- The code after the loop of `bufio.Writer.Write`: return the sticky
error if set, else copy the remaining input (which fits) into the buffer
and report full success. -/
def bufioWriteDone (b : BWriter) (s : SinkState) (p : List Nat) (nn : Nat) :
    Nat × Option Err × BWriter × SinkState :=
  match b.err with
  | some e => (nn, some e, b, s)
  | none => (nn + p.length, none, { b with buf := b.buf ++ p }, s)

/-- The loop of `bufio.Writer.Write`:
`for len(p) > b.Available() && b.err == nil`.  With an empty buffer the
input is written directly to the sink; otherwise the buffer is topped up
and flushed.  Because a successful sink write accepts everything, the loop
body runs at most twice before the remainder fits (or an error is
recorded), so a structural fuel of `p.length + 3` is more than enough; the
fuel-exhaustion case repeats the after-loop code and is never reached. -/
def bufioWriteGo : Nat → BWriter → SinkState → List Nat → Nat →
    Nat × Option Err × BWriter × SinkState
  | 0, b, s, p, nn => bufioWriteDone b s p nn
  | fuel + 1, b, s, p, nn =>
    if b.available < p.length ∧ b.err = none then
      if b.buf.length = 0 then
        -- large write, empty buffer: write directly from p to avoid a copy
        let r := sinkWrite s p
        bufioWriteGo fuel { b with err := r.2.1 } r.2.2 (p.drop r.1) (nn + r.1)
      else
        let n := min b.available p.length
        let b1 := { b with buf := b.buf ++ p.take n }
        let f := bufioFlush b1 s
        bufioWriteGo fuel f.2.1 f.2.2 (p.drop n) (nn + n)
    else bufioWriteDone b s p nn

/-- Model of `bufio.Writer.Write`. -/
def bufioWrite (b : BWriter) (s : SinkState) (p : List Nat) :
    Nat × Option Err × BWriter × SinkState :=
  bufioWriteGo (p.length + 3) b s p 0

/-- The combined state a `LineWriter` acts on: its buffered writer
(`l.buffer`) plus the sink the buffered writer targets. -/
structure LWState where
  buffer : BWriter
  sink : SinkState
  deriving DecidableEq, Repr

/-- Constructor `New`: wraps the sink in a `bufio.Writer` of the default capacity
4096 (`bufio.NewWriter`). -/
def New (s : SinkState) : LWState := ⟨⟨4096, [], none⟩, s⟩

/-- The `passthrough` closure of `LineWriter.Write`: append the segment
`p[lower:upper]` to the buffered writer, count the appended bytes, and on
success optionally flush; the first error stops everything. -/
def passthrough (st : LWState) (seg : List Nat) (flush : Bool) :
    Nat × Option Err × LWState :=
  let w := bufioWrite st.buffer st.sink seg
  match w.2.1 with
  | some e => (w.1, some e, ⟨w.2.2.1, w.2.2.2⟩)
  | none =>
    if flush then
      let f := bufioFlush w.2.2.1 w.2.2.2
      match f.1 with
      | some e => (w.1, some e, ⟨f.2.1, f.2.2⟩)
      | none => (w.1, none, ⟨f.2.1, f.2.2⟩)
    else (w.1, none, ⟨w.2.2.1, w.2.2.2⟩)

/-- The loop of `LineWriter.Write` (`for i, b := range p`), carrying the
remaining input together with the current index `i`, the cursor `lower`,
and the running count `n`: each newline triggers `passthrough(i+1, true)`,
and any error returns immediately. -/
def lwWriteGo (p : List Nat) : List Nat → Nat → Nat → Nat → LWState →
    Nat × Option Err × LWState
  | [], _, lower, n, st =>
      if lower < p.length then
        let r := passthrough st (p.drop lower) false
        (n + r.1, r.2.1, r.2.2)
      else (n, none, st)
  | c :: rest, i, lower, n, st =>
      if c = newline then
        let r := passthrough st ((p.take (i + 1)).drop lower) true
        match r.2.1 with
        | some e => (n + r.1, some e, r.2.2)
        | none => lwWriteGo p rest (i + 1) (i + 1) (n + r.1) r.2.2
      else lwWriteGo p rest (i + 1) lower n st

/-- Model of `LineWriter.Write`. -/
def lwWrite (st : LWState) (p : List Nat) : Nat × Option Err × LWState :=
  lwWriteGo p p 0 0 0 st

/-- Model of `LineWriter.Flush`: `return l.buffer.Flush()`. -/
def lwFlush (st : LWState) : Option Err × LWState :=
  let f := bufioFlush st.buffer st.sink
  (f.1, ⟨f.2.1, f.2.2⟩)

/-- Model of `LineWriter.WriteByte`: the count of `l.Write([]byte{c})` is discarded and only the error returned. -/
def lwWriteByte (st : LWState) (c : Nat) : Option Err × LWState :=
  let r := lwWrite st [c]
  (r.2.1, r.2.2)

/-- Model of `utf8.EncodeRune`: encode a code point (Go `rune` = `int32`)
into 1–4 UTF-8 bytes; surrogates and out-of-range values (after Go's
`uint32(r)` conversion) encode as `RuneError` (U+FFFD), whose 3-byte
encoding is `EF BF BD`. -/
def encodeRune (r : Int) : List Nat :=
  let i : Nat := (r % 4294967296).toNat
  if i ≤ 0x7F then [i]
  else if i ≤ 0x7FF then
    [0xC0 + i / 64, 0x80 + i % 64]
  else if 0x10FFFF < i ∨ (0xD800 ≤ i ∧ i ≤ 0xDFFF) then
    [0xEF, 0xBF, 0xBD]
  else if i ≤ 0xFFFF then
    [0xE0 + i / 4096, 0x80 + i / 64 % 64, 0x80 + i % 64]
  else
    [0xF0 + i / 262144, 0x80 + i / 4096 % 64, 0x80 + i / 64 % 64, 0x80 + i % 64]

/-- Model of `LineWriter.WriteRune`: encode the rune, then
`return l.Write(buf[:nbytes])`. -/
def lwWriteRune (st : LWState) (r : Int) : Nat × Option Err × LWState :=
  lwWrite st (encodeRune r)

/-- The byte representation of a Go string (UTF-8 bytes). -/
def strBytes (s : String) : List Nat := s.toUTF8.toList.map (fun b => b.toNat)

/-- Model of `LineWriter.WriteString`: `return l.Write([]byte(s))`. -/
def lwWriteString (st : LWState) (s : String) : Nat × Option Err × LWState :=
  lwWrite st (strBytes s)

/-! ### Derived notions used by the specification claims -/

/-- All bytes that have left the caller: what the sink has received (in
order) followed by what still sits in the internal buffer. -/
def content (st : LWState) : List Nat := st.sink.received.flatten ++ st.buffer.buf

/-- The cumulative stream up to and including its last newline byte
(empty when there is no newline). -/
def upToLastNL (l : List Nat) : List Nat :=
  (l.reverse.dropWhile (fun b => b != newline)).reverse

/-- The bytes after the last newline of the stream (the whole stream when
there is no newline). -/
def afterLastNL (l : List Nat) : List Nat :=
  (l.reverse.takeWhile (fun b => b != newline)).reverse

/-- Split a byte sequence into its newline-terminated segments (each
ending in 0x0a) and the trailing remainder after the last newline. -/
def splitLines : List Nat → List (List Nat) × List Nat
  | [] => ([], [])
  | c :: rest =>
      let r := splitLines rest
      if c = newline then ([newline] :: r.1, r.2)
      else
        match r.1 with
        | [] => ([], c :: r.2)
        | l :: ls => ((c :: l) :: ls, r.2)

/-- The loop of `LineWriter.Write` again, carrying the pending segment
`p[lower:i]` explicitly instead of the indices `i` and `lower`; proved
equivalent to `lwWriteGo` below and used as the vehicle for the
correctness proofs. -/
def lwGoP : List Nat → List Nat → Nat → LWState → Nat × Option Err × LWState
  | [], pending, n, st =>
      if pending = [] then (n, none, st)
      else
        let r := passthrough st pending false
        (n + r.1, r.2.1, r.2.2)
  | c :: rest, pending, n, st =>
      if c = newline then
        let r := passthrough st (pending ++ [newline]) true
        match r.2.1 with
        | some e => (n + r.1, some e, r.2.2)
        | none => lwGoP rest [] (n + r.1) r.2.2
      else lwGoP rest (pending ++ [c]) n st

/-- Run a sequence of `Write` calls, one per chunk, from a given state. -/
def foldWrites (st : LWState) (chunks : List (List Nat)) : LWState :=
  chunks.foldl (fun st c => (lwWrite st c).2.2) st

/-- Whether every `Write` call in a sequence of calls reports a `nil`
error. -/
def foldWritesOk (st : LWState) : List (List Nat) → Bool
  | [] => true
  | c :: cs =>
      let r := lwWrite st c
      (r.2.1 == none) && foldWritesOk r.2.2 cs

/-- A fresh writer over a fresh healthy sink. -/
def freshState : LWState := New ⟨[], []⟩

example : lwWrite freshState [97, 98, 99, 10, 100, 101, 102] =
    (7, none, ⟨⟨4096, [100, 101, 102], none⟩, ⟨[], [[97, 98, 99, 10]]⟩⟩) := by decide

example : lwWrite freshState [120, 10, 121, 10, 122] =
    (5, none, ⟨⟨4096, [122], none⟩, ⟨[], [[120, 10], [121, 10]]⟩⟩) := by decide

example : encodeRune 233 = [0xC3, 0xA9] := by decide

example : encodeRune (-1) = [0xEF, 0xBF, 0xBD] := by decide

example : splitLines [120, 10, 121, 10, 122] = ([[120, 10], [121, 10]], [122]) := by decide

/-! ### Basic lemmas about the sink model -/

theorem sinkWrite_le (s : SinkState) (p : List Nat) : (sinkWrite s p).1 ≤ p.length := by
  obtain ⟨script, received⟩ := s
  cases script with
  | nil => simp [sinkWrite]
  | cons r rest =>
    cases r with
    | ok => simp [sinkWrite]
    | fail k c => simp [sinkWrite]

theorem sinkWrite_none (s : SinkState) (p : List Nat)
    (h : (sinkWrite s p).2.1 = none) : (sinkWrite s p).1 = p.length := by
  obtain ⟨script, received⟩ := s
  cases script with
  | nil => simp [sinkWrite]
  | cons r rest =>
    cases r with
    | ok => simp [sinkWrite]
    | fail k c => simp [sinkWrite] at h

theorem sinkWrite_received (s : SinkState) (p : List Nat) :
    (sinkWrite s p).2.2.received.flatten =
      s.received.flatten ++ p.take (sinkWrite s p).1 := by
  obtain ⟨script, received⟩ := s
  cases script with
  | nil => simp [sinkWrite]
  | cons r rest =>
    cases r with
    | ok => simp [sinkWrite]
    | fail k c => simp [sinkWrite]

theorem sinkWrite_healthy (s : SinkState) (p : List Nat) (h : s.script = []) :
    sinkWrite s p = (p.length, none, ⟨[], s.received ++ [p]⟩) := by
  obtain ⟨script, received⟩ := s
  subst h
  simp [sinkWrite]

/-! ### Lemmas about the buffered writer's flush -/

theorem bufioFlush_content (b : BWriter) (s : SinkState) :
    (bufioFlush b s).2.2.received.flatten ++ (bufioFlush b s).2.1.buf =
      s.received.flatten ++ b.buf := by
  unfold bufioFlush
  cases hbe : b.err with
  | some e => simp
  | none =>
    by_cases hb : b.buf.length = 0
    · simp [hb]
    · simp only [hb, if_false]
      have hle := sinkWrite_le s b.buf
      by_cases hlt : (sinkWrite s b.buf).1 < b.buf.length ∧ (sinkWrite s b.buf).2.1 = none
      · simp only [hlt, if_true]
        simp [sinkWrite_received, List.append_assoc, List.take_append_drop]
      · simp only [hlt, if_false]
        cases he : (sinkWrite s b.buf).2.1 with
        | some e0 =>
          simp [sinkWrite_received, List.append_assoc, List.take_append_drop]
        | none =>
          have hn := sinkWrite_none s b.buf he
          simp [sinkWrite_received, hn]

theorem bufioFlush_cap (b : BWriter) (s : SinkState) :
    (bufioFlush b s).2.1.cap = b.cap := by
  unfold bufioFlush
  cases b.err with
  | some e => simp
  | none =>
    by_cases hb : b.buf.length = 0
    · simp [hb]
    · simp only [hb, if_false]
      cases hif : (if (sinkWrite s b.buf).1 < b.buf.length ∧ (sinkWrite s b.buf).2.1 = none
          then some Err.shortWrite else (sinkWrite s b.buf).2.1) with
      | some e0 => simp [hif]
      | none => simp [hif]

theorem bufioFlush_err_none (b : BWriter) (s : SinkState)
    (h : (bufioFlush b s).1 = none) : (bufioFlush b s).2.1.err = none := by
  unfold bufioFlush at *
  cases hbe : b.err with
  | some e => simp [hbe] at h
  | none =>
    by_cases hb : b.buf.length = 0
    · simp [hbe, hb]
    · simp only [hbe, hb, if_false] at h ⊢
      cases hif : (if (sinkWrite s b.buf).1 < b.buf.length ∧ (sinkWrite s b.buf).2.1 = none
          then some Err.shortWrite else (sinkWrite s b.buf).2.1) with
      | some e0 => simp [hif] at h
      | none => simp [hif]

theorem bufioFlush_healthy (b : BWriter) (s : SinkState)
    (hs : s.script = []) (hb : b.err = none) :
    bufioFlush b s = (none, { b with buf := [] },
      ⟨[], if b.buf.length = 0 then s.received else s.received ++ [b.buf]⟩) := by
  obtain ⟨script, received⟩ := s
  obtain ⟨cap, buf, berr⟩ := b
  subst hs
  simp only at hb
  subst hb
  unfold bufioFlush
  by_cases hbuf : buf.length = 0
  · have : buf = [] := List.length_eq_zero.mp hbuf
    simp [hbuf, this]
  · simp [hbuf, sinkWrite]

theorem bufioFlush_noNL (b : BWriter) (s : SinkState) (h : newline ∉ b.buf) :
    newline ∉ (bufioFlush b s).2.1.buf := by
  unfold bufioFlush
  cases b.err with
  | some e => simpa using h
  | none =>
    by_cases hb : b.buf.length = 0
    · simpa [hb] using h
    · simp only [hb, if_false]
      cases hif : (if (sinkWrite s b.buf).1 < b.buf.length ∧ (sinkWrite s b.buf).2.1 = none
          then some Err.shortWrite else (sinkWrite s b.buf).2.1) with
      | some e0 =>
        simp only [hif]
        intro hmem
        exact h (List.mem_of_mem_drop hmem)
      | none => simp [hif]

/-! ### Lemmas about the buffered writer's write -/

theorem bufioWriteGo_zero (b : BWriter) (s : SinkState) (p : List Nat) (nn : Nat) :
    bufioWriteGo 0 b s p nn = bufioWriteDone b s p nn := rfl

theorem bufioWriteGo_succ (fuel : Nat) (b : BWriter) (s : SinkState) (p : List Nat) (nn : Nat) :
    bufioWriteGo (fuel + 1) b s p nn =
      if b.available < p.length ∧ b.err = none then
        if b.buf.length = 0 then
          let r := sinkWrite s p
          bufioWriteGo fuel { b with err := r.2.1 } r.2.2 (p.drop r.1) (nn + r.1)
        else
          let n := min b.available p.length
          let b1 := { b with buf := b.buf ++ p.take n }
          let f := bufioFlush b1 s
          bufioWriteGo fuel f.2.1 f.2.2 (p.drop n) (nn + n)
      else bufioWriteDone b s p nn := rfl

theorem bufioWriteDone_spec (b : BWriter) (s : SinkState) (p : List Nat) (nn : Nat) :
    ∃ m e b' s', bufioWriteDone b s p nn = (nn + m, e, b', s') ∧ m ≤ p.length ∧
      b'.cap = b.cap ∧
      s'.received.flatten ++ b'.buf = s.received.flatten ++ b.buf ++ p.take m ∧
      (e = none → m = p.length ∧ b'.err = none) ∧
      (e = none → b.err = none) := by
  obtain ⟨cap, buf, berr⟩ := b
  cases berr with
  | some e0 =>
    exact ⟨0, some e0, ⟨cap, buf, some e0⟩, s, by simp [bufioWriteDone], by simp, rfl,
      by simp, by simp, by simp⟩
  | none =>
    exact ⟨p.length, none, ⟨cap, buf ++ p, none⟩, s, by simp [bufioWriteDone], le_refl _, rfl,
      by simp [List.append_assoc], fun _ => ⟨rfl, rfl⟩, fun _ => rfl⟩

/-- General behaviour of the `bufio.Writer.Write` loop, over any sink
script: the reported count `m` never exceeds the input, exactly the first
`m` bytes of the input are committed (to the sink or the buffer), and a
`nil` error means everything was taken and no sticky error remains. -/
theorem bufioWriteGo_spec : ∀ (fuel : Nat) (b : BWriter) (s : SinkState) (p : List Nat) (nn : Nat),
    ∃ m e b' s', bufioWriteGo fuel b s p nn = (nn + m, e, b', s') ∧ m ≤ p.length ∧
      b'.cap = b.cap ∧
      s'.received.flatten ++ b'.buf = s.received.flatten ++ b.buf ++ p.take m ∧
      (e = none → m = p.length ∧ b'.err = none) ∧
      (e = none → b.err = none) := by
  intro fuel
  induction fuel with
  | zero =>
    intro b s p nn
    rw [bufioWriteGo_zero]
    exact bufioWriteDone_spec b s p nn
  | succ fuel ih =>
    intro b s p nn
    rw [bufioWriteGo_succ]
    by_cases hc : b.available < p.length ∧ b.err = none
    · rw [if_pos hc]
      by_cases hbuf : b.buf.length = 0
      · rw [if_pos hbuf]
        have hbufnil : b.buf = [] := List.length_eq_zero.mp hbuf
        simp only
        obtain ⟨m', e, b', s', heq, hm', hcap, hcont, himp, herr⟩ :=
          ih { b with err := (sinkWrite s p).2.1 } (sinkWrite s p).2.2
            (p.drop (sinkWrite s p).1) (nn + (sinkWrite s p).1)
        have hkle := sinkWrite_le s p
        refine ⟨(sinkWrite s p).1 + m', e, b', s', ?_, ?_, hcap, ?_, ?_, fun _ => hc.2⟩
        · rw [heq, Nat.add_assoc]
        · have := hm'
          rw [List.length_drop] at this
          omega
        · rw [hcont, sinkWrite_received, hbufnil]
          rw [List.take_add]
          simp [List.append_assoc]
        · intro he
          have h2 := himp he
          have h3 := herr he
          simp only at h3
          have hk := sinkWrite_none s p h3
          constructor
          · rw [List.length_drop] at h2
            omega
          · exact h2.2
      · rw [if_neg hbuf]
        simp only
        obtain ⟨m', e, b', s', heq, hm', hcap, hcont, himp, herr⟩ :=
          ih (bufioFlush { b with buf := b.buf ++ p.take (min b.available p.length) } s).2.1
            (bufioFlush { b with buf := b.buf ++ p.take (min b.available p.length) } s).2.2
            (p.drop (min b.available p.length)) (nn + min b.available p.length)
        have hnle : min b.available p.length ≤ p.length := Nat.min_le_right _ _
        refine ⟨min b.available p.length + m', e, b', s', ?_, ?_, ?_, ?_, ?_, fun _ => hc.2⟩
        · rw [heq, Nat.add_assoc]
        · have := hm'
          rw [List.length_drop] at this
          omega
        · rw [hcap, bufioFlush_cap]
        · rw [hcont, bufioFlush_content]
          rw [List.take_add]
          simp [List.append_assoc]
        · intro he
          have h2 := himp he
          constructor
          · rw [List.length_drop] at h2
            omega
          · exact h2.2
    · rw [if_neg hc]
      exact bufioWriteDone_spec b s p nn

/-- With a healthy sink and no sticky error, `bufio.Writer.Write` takes
everything, reports no error, keeps the capacity, appends the input to the
combined sink-plus-buffer content, keeps the sink healthy, and keeps the
buffer newline-free whenever the old buffer and the input were. -/
theorem bufioWriteGo_healthy : ∀ (fuel : Nat) (b : BWriter) (s : SinkState) (p : List Nat)
    (nn : Nat), s.script = [] → b.err = none →
    ∃ b' s', bufioWriteGo fuel b s p nn = (nn + p.length, none, b', s') ∧
      b'.cap = b.cap ∧ b'.err = none ∧ s'.script = [] ∧
      s'.received.flatten ++ b'.buf = s.received.flatten ++ b.buf ++ p ∧
      (newline ∉ b.buf → newline ∉ p → newline ∉ b'.buf) := by
  intro fuel
  induction fuel with
  | zero =>
    intro b s p nn hs hb
    obtain ⟨cap, buf, berr⟩ := b
    simp only at hb
    subst hb
    rw [bufioWriteGo_zero]
    refine ⟨⟨cap, buf ++ p, none⟩, s, by simp [bufioWriteDone], rfl, rfl, hs,
      by simp [List.append_assoc], ?_⟩
    intro h1 h2 hmem
    rcases List.mem_append.mp hmem with h | h
    · exact h1 h
    · exact h2 h
  | succ fuel ih =>
    intro b s p nn hs hb
    rw [bufioWriteGo_succ]
    by_cases hc : b.available < p.length ∧ b.err = none
    · rw [if_pos hc]
      by_cases hbuf : b.buf.length = 0
      · rw [if_pos hbuf]
        have hbufnil : b.buf = [] := List.length_eq_zero.mp hbuf
        rw [sinkWrite_healthy s p hs]
        simp only
        obtain ⟨b', s', heq, hcap, herr, hscript, hcont, hnl⟩ :=
          ih { b with err := none } ⟨[], s.received ++ [p]⟩ (p.drop p.length) (nn + p.length)
            rfl rfl
        refine ⟨b', s', ?_, hcap, herr, hscript, ?_, ?_⟩
        · rw [heq]
          simp
        · rw [hcont]
          simp [hbufnil, List.append_assoc]
        · intro h1 h2
          exact hnl (by simp [hbufnil]) (by simp)
      · rw [if_neg hbuf]
        simp only
        have hflush := bufioFlush_healthy
          { b with buf := b.buf ++ p.take (min b.available p.length) } s hs hb
        rw [hflush]
        simp only
        obtain ⟨b', s', heq, hcap, herr, hscript, hcont, hnl⟩ :=
          ih { b with buf := ([] : List Nat) }
            ⟨[], if (b.buf ++ p.take (min b.available p.length)).length = 0 then s.received
              else s.received ++ [b.buf ++ p.take (min b.available p.length)]⟩
            (p.drop (min b.available p.length)) (nn + min b.available p.length) rfl hb
        have hne : ¬ (b.buf ++ p.take (min b.available p.length)).length = 0 := by
          intro h
          rw [List.length_append] at h
          omega
        have hnle : min b.available p.length ≤ p.length := Nat.min_le_right _ _
        refine ⟨b', s', ?_, hcap, herr, hscript, ?_, ?_⟩
        · rw [heq]
          have hcount : nn + min b.available p.length +
              (p.drop (min b.available p.length)).length = nn + p.length := by
            rw [List.length_drop]
            omega
          rw [hcount]
        · rw [hcont]
          simp only [hne, if_false]
          simp [List.append_assoc, List.take_append_drop]
        · intro h1 h2
          refine hnl (by simp) (fun h => h2 (List.mem_of_mem_drop h))
    · rw [if_neg hc]
      obtain ⟨cap, buf, berr⟩ := b
      simp only at hb
      subst hb
      refine ⟨⟨cap, buf ++ p, none⟩, s, by simp [bufioWriteDone], rfl, rfl, hs,
        by simp [List.append_assoc], ?_⟩
      intro h1 h2 hmem
      rcases List.mem_append.mp hmem with h | h
      · exact h1 h
      · exact h2 h

/-- When the input fits in the buffer's free space and there is no sticky
error, `bufio.Writer.Write` simply appends to the buffer, touching neither
the sink nor the error state.  This holds for any sink script. -/
theorem bufioWrite_fit (b : BWriter) (s : SinkState) (p : List Nat)
    (hb : b.err = none) (hfit : b.buf.length + p.length ≤ b.cap) :
    bufioWrite b s p = (p.length, none, { b with buf := b.buf ++ p }, s) := by
  obtain ⟨cap, buf, berr⟩ := b
  have hb' : berr = none := hb
  subst hb'
  have hfit' : buf.length + p.length ≤ cap := hfit
  unfold bufioWrite
  have h3 : p.length + 3 = (p.length + 2) + 1 := rfl
  rw [h3, bufioWriteGo_succ]
  have hcond : ¬ ((⟨cap, buf, none⟩ : BWriter).available < p.length ∧
      (⟨cap, buf, none⟩ : BWriter).err = none) := by
    intro hcc
    have h1 : cap - buf.length < p.length := hcc.1
    omega
  rw [if_neg hcond]
  simp [bufioWriteDone]

/-- A write larger than the whole capacity, on an empty buffer with a
healthy sink, goes straight to the sink as one chunk and leaves the
buffer empty. -/
theorem bufioWrite_direct (b : BWriter) (s : SinkState) (p : List Nat)
    (hb : b.err = none) (hbuf : b.buf = []) (hs : s.script = [])
    (hbig : b.cap < p.length) :
    bufioWrite b s p = (p.length, none, ⟨b.cap, [], none⟩, ⟨[], s.received ++ [p]⟩) := by
  obtain ⟨cap, buf, berr⟩ := b
  have hb' : berr = none := hb
  subst hb'
  have hbuf' : buf = [] := hbuf
  subst hbuf'
  unfold bufioWrite
  have h3 : p.length + 3 = (p.length + 2) + 1 := rfl
  rw [h3, bufioWriteGo_succ]
  have hcond : (⟨cap, [], none⟩ : BWriter).available < p.length ∧
      (⟨cap, [], none⟩ : BWriter).err = none := by
    constructor
    · show cap - ([] : List Nat).length < p.length
      simpa using hbig
    · rfl
  rw [if_pos hcond, if_pos (by rfl)]
  simp only
  rw [sinkWrite_healthy s p hs]
  simp only
  have h2 : p.length + 2 = (p.length + 1) + 1 := rfl
  rw [h2, bufioWriteGo_succ]
  rw [List.drop_length]
  have hcond2 : ¬ ((⟨cap, [], none⟩ : BWriter).available < ([] : List Nat).length ∧
      (⟨cap, [], none⟩ : BWriter).err = none) := by
    intro hcc
    have h1 : cap - ([] : List Nat).length < ([] : List Nat).length := hcc.1
    simp at h1
  rw [if_neg hcond2]
  simp [bufioWriteDone]

/-! ### Lemmas about `passthrough` -/

/-- General behaviour of `passthrough`, over any sink script: the count
never exceeds the segment, exactly the counted bytes are committed, and a
`nil` error means the whole segment was appended with no sticky error
left behind.  The capacity never changes. -/
theorem passthrough_spec (st : LWState) (seg : List Nat) (flush : Bool) :
    (passthrough st seg flush).1 ≤ seg.length ∧
    (passthrough st seg flush).2.2.buffer.cap = st.buffer.cap ∧
    content (passthrough st seg flush).2.2 =
      content st ++ seg.take (passthrough st seg flush).1 ∧
    ((passthrough st seg flush).2.1 = none →
      (passthrough st seg flush).1 = seg.length ∧
      (passthrough st seg flush).2.2.buffer.err = none) := by
  obtain ⟨m, e, b', s', heq, hm, hcap, hcont, himp, _⟩ :=
    bufioWriteGo_spec (seg.length + 3) st.buffer st.sink seg 0
  rw [Nat.zero_add] at heq
  have hw : bufioWrite st.buffer st.sink seg = (m, e, b', s') := heq
  unfold passthrough
  rw [hw]
  cases e with
  | some e0 =>
    refine ⟨hm, hcap, ?_, by simp⟩
    simpa [content] using hcont
  | none =>
    have hfull := himp rfl
    cases flush with
    | false =>
      refine ⟨hm, hcap, ?_, fun _ => ⟨hfull.1, hfull.2⟩⟩
      simpa [content] using hcont
    | true =>
      simp only [if_true]
      cases hf : (bufioFlush b' s').1 with
      | some e1 =>
        refine ⟨hm, ?_, ?_, by simp⟩
        · simp [bufioFlush_cap, hcap]
        · simp only [content]
          rw [bufioFlush_content]
          simpa [content] using hcont
      | none =>
        refine ⟨hm, ?_, ?_, fun _ => ⟨hfull.1, ?_⟩⟩
        · simp [bufioFlush_cap, hcap]
        · simp only [content]
          rw [bufioFlush_content]
          simpa [content] using hcont
        · exact bufioFlush_err_none b' s' hf

/-- With a healthy sink and no sticky error, a flushing `passthrough`
appends the whole segment and forwards everything: the buffer ends up
empty and the sink has received every byte. -/
theorem passthrough_healthy_flush (st : LWState) (seg : List Nat)
    (hs : st.sink.script = []) (hb : st.buffer.err = none) :
    ∃ st', passthrough st seg true = (seg.length, none, st') ∧
      st'.buffer.cap = st.buffer.cap ∧ st'.buffer.err = none ∧
      st'.sink.script = [] ∧ st'.buffer.buf = [] ∧
      st'.sink.received.flatten = content st ++ seg := by
  obtain ⟨b', s', heq, hcap, herr, hscript, hcont, _⟩ :=
    bufioWriteGo_healthy (seg.length + 3) st.buffer st.sink seg 0 hs hb
  rw [Nat.zero_add] at heq
  have hw : bufioWrite st.buffer st.sink seg = (seg.length, none, b', s') := heq
  unfold passthrough
  rw [hw]
  simp only [if_true]
  rw [bufioFlush_healthy b' s' hscript herr]
  simp only
  refine ⟨⟨{ b' with buf := [] }, _⟩, rfl, hcap, herr, rfl, rfl, ?_⟩
  by_cases hbe : b'.buf.length = 0
  · have hbnil : b'.buf = [] := List.length_eq_zero.mp hbe
    simp only [hbe, if_pos]
    calc s'.received.flatten = s'.received.flatten ++ b'.buf := by rw [hbnil]; simp
    _ = st.sink.received.flatten ++ st.buffer.buf ++ seg := hcont
    _ = content st ++ seg := by simp [content, List.append_assoc]
  · simp only [hbe, if_neg, ite_false]
    rw [List.flatten_append]
    simp only [List.flatten_cons, List.flatten_nil, List.append_nil]
    rw [hcont]
    simp [content]

/-- With a healthy sink and no sticky error, a non-flushing `passthrough`
appends the whole segment to the sink-plus-buffer content with no error,
and the buffer stays newline-free if the old buffer and segment were. -/
theorem passthrough_healthy_nof (st : LWState) (seg : List Nat)
    (hs : st.sink.script = []) (hb : st.buffer.err = none) :
    ∃ st', passthrough st seg false = (seg.length, none, st') ∧
      st'.buffer.cap = st.buffer.cap ∧ st'.buffer.err = none ∧
      st'.sink.script = [] ∧ content st' = content st ++ seg ∧
      (newline ∉ st.buffer.buf → newline ∉ seg → newline ∉ st'.buffer.buf) := by
  obtain ⟨b', s', heq, hcap, herr, hscript, hcont, hnl⟩ :=
    bufioWriteGo_healthy (seg.length + 3) st.buffer st.sink seg 0 hs hb
  rw [Nat.zero_add] at heq
  have hw : bufioWrite st.buffer st.sink seg = (seg.length, none, b', s') := heq
  unfold passthrough
  rw [hw]
  exact ⟨⟨b', s'⟩, rfl, hcap, herr, hscript, by simpa [content] using hcont, hnl⟩

/-- When the segment fits in the buffer's free space, a non-flushing
`passthrough` just appends it to the buffer (any sink script). -/
theorem passthrough_fit_nof (st : LWState) (seg : List Nat)
    (hb : st.buffer.err = none)
    (hfit : st.buffer.buf.length + seg.length ≤ st.buffer.cap) :
    passthrough st seg false =
      (seg.length, none, ⟨{ st.buffer with buf := st.buffer.buf ++ seg }, st.sink⟩) := by
  unfold passthrough
  rw [bufioWrite_fit st.buffer st.sink seg hb hfit]
  simp

/-- When the buffer is empty, the segment fits in the capacity and the
sink is healthy, a flushing `passthrough` delivers exactly the segment to
the sink as a single chunk. -/
theorem passthrough_fit_flush (st : LWState) (seg : List Nat)
    (hs : st.sink.script = []) (hb : st.buffer.err = none)
    (hemp : st.buffer.buf = []) (hne : seg ≠ [])
    (hfit : seg.length ≤ st.buffer.cap) :
    passthrough st seg true =
      (seg.length, none, ⟨⟨st.buffer.cap, [], none⟩,
        ⟨[], st.sink.received ++ [seg]⟩⟩) := by
  obtain ⟨⟨cap, buf, berr⟩, sink⟩ := st
  have hb' : berr = none := hb
  subst hb'
  have hbuf' : buf = [] := hemp
  subst hbuf'
  have hs' : sink.script = [] := hs
  have hfit0 : seg.length ≤ cap := hfit
  unfold passthrough
  rw [bufioWrite_fit ⟨cap, [], none⟩ sink seg rfl (by simpa using hfit0)]
  simp only [if_true]
  rw [bufioFlush_healthy ⟨cap, [] ++ seg, none⟩ sink hs' rfl]
  have hlen : ¬ (([] : List Nat) ++ seg).length = 0 := by
    intro h
    exact hne (List.length_eq_zero.mp (by simpa using h))
  simp [hlen, hne]

/-- When the buffer is empty and the sink is healthy, a flushing
`passthrough` delivers the segment to the sink as a single chunk whatever
its length: a segment within capacity is buffered and then flushed, and a
larger one is passed straight through to the sink by the buffered
writer's large-write path — one sink write either way. -/
theorem passthrough_flush_empty (st : LWState) (seg : List Nat)
    (hs : st.sink.script = []) (hb : st.buffer.err = none)
    (hemp : st.buffer.buf = []) (hne : seg ≠ []) :
    passthrough st seg true =
      (seg.length, none, ⟨⟨st.buffer.cap, [], none⟩,
        ⟨[], st.sink.received ++ [seg]⟩⟩) := by
  by_cases hfit : seg.length ≤ st.buffer.cap
  · exact passthrough_fit_flush st seg hs hb hemp hne hfit
  · push_neg at hfit
    unfold passthrough
    rw [bufioWrite_direct st.buffer st.sink seg hb hemp hs hfit]
    dsimp only
    rw [bufioFlush_healthy ⟨st.buffer.cap, [], none⟩
      ⟨[], st.sink.received ++ [seg]⟩ rfl rfl]
    simp

/-! ### The write loop: index form versus pending-segment form -/

theorem lwWriteGo_eq_lwGoP (p : List Nat) :
    ∀ (rest : List Nat) (i lower n : Nat) (st : LWState), i ≤ p.length → lower ≤ i →
    rest = p.drop i →
    lwWriteGo p rest i lower n st = lwGoP rest ((p.take i).drop lower) n st := by
  intro rest
  induction rest with
  | nil =>
    intro i lower n st hi hlo hrest
    have hlen : p.length ≤ i := by
      by_contra hlt
      push_neg at hlt
      have := List.drop_eq_nil_iff.mp hrest.symm
      omega
    have hieq : i = p.length := le_antisymm hi hlen
    subst hieq
    rw [List.take_length]
    unfold lwWriteGo lwGoP
    by_cases hl : lower < p.length
    · have hpne : ¬ p.drop lower = [] := by
        intro h
        have := List.drop_eq_nil_iff.mp h
        omega
      rw [if_pos hl, if_neg hpne]
    · have hpe : p.drop lower = [] := List.drop_eq_nil_of_le (by omega)
      rw [if_neg hl, hpe, if_pos rfl]
  | cons c rest ih =>
    intro i lower n st hi hlo hrest
    have hip : i < p.length := by
      by_contra hge
      push_neg at hge
      rw [List.drop_eq_nil_of_le hge] at hrest
      exact List.noConfusion hrest
    have hgete : p[i]? = some c := by
      have h0 : (p.drop i)[0]? = p[i]? := by
        rw [List.getElem?_drop, Nat.add_zero]
      rw [← hrest] at h0
      simpa using h0.symm
    have htake : p.take (i + 1) = p.take i ++ [c] := by
      rw [List.take_succ, hgete]
      rfl
    have hlentake : (p.take i).length = i := by
      rw [List.length_take]
      omega
    have hdroptake : (p.take (i + 1)).drop lower = (p.take i).drop lower ++ [c] := by
      rw [htake, List.drop_append_of_le_length (by omega)]
    have hrest' : rest = p.drop (i + 1) := by
      have h1 : p.drop (i + 1) = (p.drop i).drop 1 := (List.drop_drop 1 i p).symm
      rw [h1, ← hrest]
      simp
    unfold lwWriteGo lwGoP
    by_cases hc : c = newline
    · rw [if_pos hc, if_pos hc]
      subst hc
      rw [hdroptake]
      cases hr : (passthrough st ((p.take i).drop lower ++ [newline]) true).2.1 with
      | some e => simp only [hr]
      | none =>
        simp only [hr]
        have hemp : (p.take (i + 1)).drop (i + 1) = [] := by
          apply List.drop_eq_nil_of_le
          rw [List.length_take]
          omega
        rw [ih (i + 1) (i + 1) _ _ (by omega) (le_refl _) hrest', hemp]
    · rw [if_neg hc, if_neg hc]
      rw [ih (i + 1) lower _ _ (by omega) (by omega) hrest', hdroptake]

/-- Lemma rewriting `LineWriter.Write` into pending-segment form. -/
theorem lwWrite_eq_lwGoP (st : LWState) (p : List Nat) :
    lwWrite st p = lwGoP p [] 0 st := by
  unfold lwWrite
  rw [lwWriteGo_eq_lwGoP p p 0 0 0 st (by omega) (le_refl 0) rfl]
  rfl

/-! ### Behaviour of the write loop -/

/-- General behaviour of the write loop over any sink script: the count
grows by some `m` bounded by the input still to process, exactly the first
`m` unprocessed bytes are committed, and a `nil` error means everything
was processed. -/
theorem lwGoP_spec : ∀ (rest pending : List Nat) (n : Nat) (st : LWState),
    ∃ m e st', lwGoP rest pending n st = (n + m, e, st') ∧
      m ≤ pending.length + rest.length ∧
      st'.buffer.cap = st.buffer.cap ∧
      content st' = content st ++ (pending ++ rest).take m ∧
      (e = none → m = pending.length + rest.length) := by
  intro rest
  induction rest with
  | nil =>
    intro pending n st
    unfold lwGoP
    by_cases hp : pending = []
    · refine ⟨0, none, st, ?_, by simp, rfl, by simp, by simp [hp]⟩
      rw [if_pos hp, Nat.add_zero]
    · rw [if_neg hp]
      obtain ⟨hle, hcap, hcont, himp⟩ := passthrough_spec st pending false
      refine ⟨(passthrough st pending false).1, (passthrough st pending false).2.1,
        (passthrough st pending false).2.2, rfl, by simpa using hle, hcap, ?_, ?_⟩
      · simpa using hcont
      · intro he
        simpa using (himp he).1
  | cons c rest ih =>
    intro pending n st
    unfold lwGoP
    by_cases hc : c = newline
    · rw [if_pos hc]
      subst hc
      obtain ⟨hle, hcap, hcont, himp⟩ := passthrough_spec st (pending ++ [newline]) true
      cases hr : (passthrough st (pending ++ [newline]) true).2.1 with
      | some e =>
        simp only [hr]
        refine ⟨(passthrough st (pending ++ [newline]) true).1, some e,
          (passthrough st (pending ++ [newline]) true).2.2, rfl, ?_, hcap, ?_, by simp⟩
        · have h := hle
          simp only [List.length_append, List.length_singleton, List.length_cons,
            List.length_nil] at h ⊢
          omega
        · rw [hcont, List.append_cons pending newline rest]
          rw [List.take_append_of_le_length hle]
      | none =>
        simp only [hr]
        have hfull := himp hr
        obtain ⟨m', e, st'', heq, hm', hcap', hcont', himp'⟩ :=
          ih [] (n + (passthrough st (pending ++ [newline]) true).1)
            (passthrough st (pending ++ [newline]) true).2.2
        refine ⟨(passthrough st (pending ++ [newline]) true).1 + m', e, st'', ?_, ?_, ?_, ?_, ?_⟩
        · rw [heq, Nat.add_assoc]
        · simp only [List.length_nil, List.length_cons, List.length_append,
            List.length_singleton] at hm' hfull ⊢
          omega
        · rw [hcap', hcap]
        · rw [hcont', hcont, hfull.1]
          rw [List.take_length, List.nil_append, List.append_cons pending newline rest,
            List.take_append, List.append_assoc]
        · intro he
          have h2 := himp' he
          have h3 := hfull.1
          simp only [List.length_nil, List.length_append, List.length_cons] at h2 h3 ⊢
          omega
    · rw [if_neg hc]
      obtain ⟨m, e, st', heq, hm, hcap, hcont, himp⟩ := ih (pending ++ [c]) n st
      refine ⟨m, e, st', heq, ?_, hcap, ?_, ?_⟩
      · simp only [List.length_append, List.length_singleton, List.length_cons,
          List.length_nil] at hm ⊢
        omega
      · rw [hcont, List.append_cons pending c rest]
      · intro he
        have h2 := himp he
        simp only [List.length_append, List.length_singleton, List.length_cons,
          List.length_nil] at h2 ⊢
        omega

/-- With a healthy sink and no sticky error the write loop consumes
everything, reports no error, and appends all processed bytes to the
combined sink-plus-buffer content; the buffer stays newline-free whenever
it and the pending segment started newline-free. -/
theorem lwGoP_healthy : ∀ (rest pending : List Nat) (n : Nat) (st : LWState),
    st.sink.script = [] → st.buffer.err = none →
    ∃ st', lwGoP rest pending n st = (n + (pending.length + rest.length), none, st') ∧
      st'.buffer.cap = st.buffer.cap ∧ st'.buffer.err = none ∧ st'.sink.script = [] ∧
      content st' = content st ++ pending ++ rest ∧
      (newline ∉ st.buffer.buf → newline ∉ pending → newline ∉ st'.buffer.buf) := by
  intro rest
  induction rest with
  | nil =>
    intro pending n st hs hb
    unfold lwGoP
    by_cases hp : pending = []
    · refine ⟨st, ?_, rfl, hb, hs, by simp [hp], fun h _ => h⟩
      rw [if_pos hp, hp]
      simp
    · rw [if_neg hp]
      obtain ⟨st', heq, hcap, herr, hscript, hcont, hnl⟩ :=
        passthrough_healthy_nof st pending hs hb
      rw [heq]
      exact ⟨st', by simp, hcap, herr, hscript, by simpa using hcont, hnl⟩
  | cons c rest ih =>
    intro pending n st hs hb
    unfold lwGoP
    by_cases hc : c = newline
    · rw [if_pos hc]
      subst hc
      obtain ⟨st', heq, hcap, herr, hscript, hemp, hrecv⟩ :=
        passthrough_healthy_flush st (pending ++ [newline]) hs hb
      rw [heq]
      simp only
      obtain ⟨st'', heq', hcap', herr', hscript', hcont', hnl'⟩ :=
        ih [] (n + (pending ++ [newline]).length) st' hscript herr
      rw [heq']
      refine ⟨st'', ?_, by rw [hcap', hcap], herr', hscript', ?_, ?_⟩
      · have : n + (pending ++ [newline]).length + (([] : List Nat).length + rest.length) =
            n + (pending.length + (newline :: rest).length) := by
          simp only [List.length_append, List.length_cons, List.length_nil]
          omega
        rw [this]
      · rw [hcont']
        have hcst' : content st' = content st ++ (pending ++ [newline]) := by
          simp only [content, hemp, List.append_nil]
          exact hrecv
        rw [hcst']
        simp [List.append_assoc]
      · intro _ _
        exact hnl' (by rw [hemp]; simp) (by simp)
    · rw [if_neg hc]
      obtain ⟨st', heq, hcap, herr, hscript, hcont, hnl⟩ := ih (pending ++ [c]) n st hs hb
      rw [heq]
      refine ⟨st', ?_, hcap, herr, hscript, ?_, ?_⟩
      · have : pending.length + (c :: rest).length = (pending ++ [c]).length + rest.length := by
          simp only [List.length_append, List.length_cons, List.length_nil]
          omega
        rw [this]
      · rw [hcont]
        simp [List.append_assoc]
      · intro h1 h2
        refine hnl h1 ?_
        intro hmem
        rcases List.mem_append.mp hmem with h | h
        · exact h2 h
        · simp at h
          exact hc h.symm

/-! ### Lemmas about `splitLines` -/

theorem splitLines_cons (c : Nat) (rest : List Nat) :
    splitLines (c :: rest) =
      if c = newline then ([newline] :: (splitLines rest).1, (splitLines rest).2)
      else match (splitLines rest).1 with
        | [] => ([], c :: (splitLines rest).2)
        | l :: ls => ((c :: l) :: ls, (splitLines rest).2) := rfl

theorem splitLines_no_newline : ∀ (l : List Nat), newline ∉ l → splitLines l = ([], l) := by
  intro l
  induction l with
  | nil => intro _; rfl
  | cons c rest ih =>
    intro h
    have hc : ¬ c = newline := fun hce => h (hce ▸ List.mem_cons_self c rest)
    have hrest : newline ∉ rest := fun hm => h (List.mem_cons_of_mem c hm)
    rw [splitLines_cons, ih hrest]
    simp [hc]

theorem splitLines_newline_seg : ∀ (a t : List Nat), newline ∉ a →
    splitLines (a ++ newline :: t) =
      ((a ++ [newline]) :: (splitLines t).1, (splitLines t).2) := by
  intro a
  induction a with
  | nil =>
    intro t _
    rw [List.nil_append, splitLines_cons]
    simp
  | cons c a' ih =>
    intro t h
    have hc : ¬ c = newline := fun hce => h (hce ▸ List.mem_cons_self c a')
    have ha' : newline ∉ a' := fun hm => h (List.mem_cons_of_mem c hm)
    have hstep : (c :: a') ++ newline :: t = c :: (a' ++ newline :: t) := rfl
    rw [hstep, splitLines_cons, ih t ha']
    simp [hc]

theorem splitLines_length_count : ∀ (l : List Nat),
    (splitLines l).1.length = l.count newline := by
  intro l
  induction l with
  | nil => rfl
  | cons c rest ih =>
    rw [splitLines_cons]
    by_cases hc : c = newline
    · subst hc
      simp [List.count_cons, ih]
    · simp only [hc, if_false, ite_false]
      cases hsp : (splitLines rest).1 with
      | nil =>
        rw [hsp] at ih
        simp [List.count_cons, hc, ← ih]
      | cons lhd ltl =>
        rw [hsp] at ih
        simp only [List.count_cons]
        simp [← ih, hc]

/-- When the trailing remainder of the remaining input fits in the buffer
capacity, and the buffer starts empty over a healthy sink, the write loop
delivers exactly the newline-terminated segments to the sink, one chunk
each (segments longer than the capacity go through the buffered writer's
large-write path, still as one chunk), and leaves exactly the trailing
remainder buffered. -/
theorem lwGoP_split : ∀ (rest pending : List Nat) (n : Nat) (st : LWState),
    st.sink.script = [] → st.buffer.err = none → st.buffer.buf = [] →
    newline ∉ pending →
    (splitLines (pending ++ rest)).2.length ≤ st.buffer.cap →
    lwGoP rest pending n st = (n + (pending.length + rest.length), none,
      ⟨⟨st.buffer.cap, (splitLines (pending ++ rest)).2, none⟩,
       ⟨[], st.sink.received ++ (splitLines (pending ++ rest)).1⟩⟩) := by
  intro rest
  induction rest with
  | nil =>
    intro pending n st hs hb hemp hpnl hfittr
    rw [List.append_nil] at hfittr ⊢
    rw [splitLines_no_newline pending hpnl] at hfittr ⊢
    unfold lwGoP
    obtain ⟨⟨cap, buf, berr⟩, ⟨scr, recv⟩⟩ := st
    have hb' : berr = none := hb
    subst hb'
    have hbuf' : buf = [] := hemp
    subst hbuf'
    have hs' : scr = [] := hs
    subst hs'
    by_cases hp : pending = []
    · rw [if_pos hp, hp]
      simp
    · rw [if_neg hp]
      rw [passthrough_fit_nof _ pending rfl (by simpa using hfittr)]
      simp
  | cons c rest ih =>
    intro pending n st hs hb hemp hpnl hfittr
    unfold lwGoP
    by_cases hc : c = newline
    · rw [if_pos hc]
      subst hc
      have hsplit := splitLines_newline_seg pending rest hpnl
      rw [hsplit] at hfittr
      rw [passthrough_flush_empty st (pending ++ [newline]) hs hb hemp (by simp)]
      simp only
      rw [ih [] (n + (pending ++ [newline]).length)
        ⟨⟨st.buffer.cap, [], none⟩, ⟨[], st.sink.received ++ [pending ++ [newline]]⟩⟩
        rfl rfl rfl (List.not_mem_nil newline)
        (by simpa using hfittr)]
      rw [hsplit]
      have hcount : n + (pending ++ [newline]).length +
          (([] : List Nat).length + rest.length) =
          n + (pending.length + (newline :: rest).length) := by
        simp only [List.length_append, List.length_cons, List.length_nil]
        omega
      rw [hcount]
      simp [List.append_assoc]
    · rw [if_neg hc]
      have hcnl : newline ∉ pending ++ [c] := by
        intro hmem
        rcases List.mem_append.mp hmem with h | h
        · exact hpnl h
        · simp at h
          exact hc h.symm
      have hassoc : (pending ++ [c]) ++ rest = pending ++ c :: rest := by
        rw [List.append_assoc]
        rfl
      rw [ih (pending ++ [c]) n st hs hb hemp hcnl
        (by rw [hassoc]; exact hfittr)]
      rw [hassoc]
      have hcount : n + ((pending ++ [c]).length + rest.length) =
          n + (pending.length + (c :: rest).length) := by
        simp only [List.length_append, List.length_cons, List.length_nil]
        omega
      rw [hcount]

/-! ### Whole-call lemmas for `Write`, and the fold over several calls -/

/-- A whole `Write` call with a healthy sink and no sticky error: consumes
everything, no error, content grows by the input, and the buffer stays
newline-free. -/
theorem lwWrite_healthy (st : LWState) (p : List Nat)
    (hs : st.sink.script = []) (hb : st.buffer.err = none) :
    ∃ st', lwWrite st p = (p.length, none, st') ∧
      st'.buffer.cap = st.buffer.cap ∧ st'.buffer.err = none ∧ st'.sink.script = [] ∧
      content st' = content st ++ p ∧
      (newline ∉ st.buffer.buf → newline ∉ st'.buffer.buf) := by
  rw [lwWrite_eq_lwGoP]
  obtain ⟨st', heq, hcap, herr, hscript, hcont, hnl⟩ := lwGoP_healthy p [] 0 st hs hb
  refine ⟨st', ?_, hcap, herr, hscript, by simpa using hcont,
    fun h => hnl h (List.not_mem_nil newline)⟩
  rw [heq]
  simp

theorem foldWrites_nil (st : LWState) : foldWrites st [] = st := rfl

theorem foldWrites_cons (st : LWState) (c : List Nat) (cs : List (List Nat)) :
    foldWrites st (c :: cs) = foldWrites (lwWrite st c).2.2 cs := rfl

/-- Any sequence of `Write` calls over a healthy sink: every call reports
a `nil` error, and afterwards the sink content followed by the buffer is
exactly the concatenation of everything written; the buffer stays
newline-free. -/
theorem foldWrites_healthy : ∀ (chunks : List (List Nat)) (st : LWState),
    st.sink.script = [] → st.buffer.err = none →
    (foldWrites st chunks).sink.script = [] ∧
    (foldWrites st chunks).buffer.err = none ∧
    (foldWrites st chunks).buffer.cap = st.buffer.cap ∧
    content (foldWrites st chunks) = content st ++ chunks.flatten ∧
    (newline ∉ st.buffer.buf → newline ∉ (foldWrites st chunks).buffer.buf) ∧
    foldWritesOk st chunks = true := by
  intro chunks
  induction chunks with
  | nil =>
    intro st hs hb
    exact ⟨hs, hb, rfl, by simp [foldWrites], fun h => h, rfl⟩
  | cons c cs ih =>
    intro st hs hb
    obtain ⟨st', heq, hcap, herr, hscript, hcont, hnl⟩ := lwWrite_healthy st c hs hb
    rw [foldWrites_cons, heq]
    obtain ⟨ih1, ih2, ih3, ih4, ih5, ih6⟩ := ih st' hscript herr
    refine ⟨ih1, ih2, by rw [ih3, hcap], ?_, fun h => ih5 (hnl h), ?_⟩
    · rw [ih4, hcont]
      simp [List.append_assoc]
    · show (((lwWrite st c).2.1 == none) && foldWritesOk (lwWrite st c).2.2 cs) = true
      rw [heq]
      simpa using ih6

/-! ### Helpers about the last newline of a stream -/

theorem dropWhile_append_all {p : Nat → Bool} : ∀ (xs ys : List Nat),
    (∀ x ∈ xs, p x = true) →
    List.dropWhile p (xs ++ ys) = List.dropWhile p ys := by
  intro xs ys
  induction xs with
  | nil => intro _; rfl
  | cons a xs ih =>
    intro h
    rw [List.cons_append, List.dropWhile_cons]
    rw [h a (List.mem_cons_self a xs)]
    simp only [if_true]
    exact ih (fun x hx => h x (List.mem_cons_of_mem a hx))

theorem takeWhile_append_all {p : Nat → Bool} : ∀ (xs ys : List Nat),
    (∀ x ∈ xs, p x = true) →
    List.takeWhile p (xs ++ ys) = xs ++ List.takeWhile p ys := by
  intro xs ys
  induction xs with
  | nil => intro _; rfl
  | cons a xs ih =>
    intro h
    rw [List.cons_append, List.takeWhile_cons]
    rw [h a (List.mem_cons_self a xs)]
    simp only [if_true]
    rw [ih (fun x hx => h x (List.mem_cons_of_mem a hx))]
    rfl

/-- Appending newline-free bytes does not move the last newline. -/
theorem upToLastNL_append (r b : List Nat) (h : newline ∉ b) :
    upToLastNL (r ++ b) = upToLastNL r := by
  unfold upToLastNL
  rw [List.reverse_append]
  rw [dropWhile_append_all b.reverse r.reverse ?_]
  intro x hx
  have hxb : x ∈ b := List.mem_reverse.mp hx
  have : x ≠ newline := fun hxe => h (hxe ▸ hxb)
  simpa using this

/-- The stream splits into the part up to the last newline and the part
after it. -/
theorem upToLastNL_append_afterLastNL (l : List Nat) :
    upToLastNL l ++ afterLastNL l = l := by
  unfold upToLastNL afterLastNL
  rw [← List.reverse_append, List.takeWhile_append_dropWhile, List.reverse_reverse]

theorem isPrefixOf_append : ∀ (l t : List Nat), l.isPrefixOf (l ++ t) = true := by
  intro l t
  induction l with
  | nil => simp [List.isPrefixOf]
  | cons a l ih => simp [List.isPrefixOf, ih]

/-- The bytes up to the last newline are always a sink-forwarded part of
the received stream when the remaining buffer holds no newline. -/
theorem upToLastNL_isPrefixOf (recv buf : List Nat) (h : newline ∉ buf) :
    (upToLastNL (recv ++ buf)).isPrefixOf recv = true := by
  rw [upToLastNL_append recv buf h]
  have hsplit := upToLastNL_append_afterLastNL recv
  calc (upToLastNL recv).isPrefixOf recv
      = (upToLastNL recv).isPrefixOf (upToLastNL recv ++ afterLastNL recv) := by rw [hsplit]
    _ = true := isPrefixOf_append _ _

/-! ### Two lemmas used to evaluate capacity-overflow scenarios -/

/-- Scanning bytes that contain no newline only accumulates them into the
pending segment. -/
theorem lwGoP_all_non_newline : ∀ (rest pending : List Nat) (n : Nat) (st : LWState),
    (∀ b ∈ rest, ¬ b = newline) →
    lwGoP rest pending n st = lwGoP [] (pending ++ rest) n st := by
  intro rest
  induction rest with
  | nil => intro pending n st _; rw [List.append_nil]
  | cons c rest ih =>
    intro pending n st h
    have hc : ¬ c = newline := h c (List.mem_cons_self c rest)
    show lwGoP (c :: rest) pending n st = _
    unfold lwGoP
    rw [if_neg hc]
    rw [ih (pending ++ [c]) n st (fun b hb => h b (List.mem_cons_of_mem c hb))]
    rw [List.append_assoc]
    rfl


/-! ### The claims -/

/-- C9: `Write` on an empty byte sequence returns `(0, nil)`, performs no
append and no flush, and leaves the buffer and the sink unchanged. -/
theorem C9_empty_write (st : LWState) : lwWrite st [] = (0, none, st) := rfl

/-- C8: `WriteByte c` is `Write [c]` with the count discarded, and
`WriteString s` is `Write` on the string's byte representation, same
count and error. -/
theorem C8_byte_string_equiv (st : LWState) (c : Nat) (s : String) :
    lwWriteByte st c = ((lwWrite st [c]).2.1, (lwWrite st [c]).2.2) ∧
    lwWriteString st s = lwWrite st (strBytes s) := ⟨rfl, rfl⟩

/-- C2: `Write p` returns the number of bytes committed together with the
first error; processing stops there: the committed content grows by
exactly the first `n` bytes of `p`, a `nil` error means all of `p` was
taken, and a short count comes with a non-`nil` error. -/
theorem C2_short_write_error (st : LWState) (p : List Nat) (n : Nat) (e : Option Err)
    (st' : LWState) (h : lwWrite st p = (n, e, st')) :
    n ≤ p.length ∧ (e = none → n = p.length) ∧ (n < p.length → e ≠ none) ∧
    content st' = content st ++ p.take n := by
  obtain ⟨m, e', st'', heq, hm, _, hcont, himp⟩ := lwGoP_spec p [] 0 st
  rw [lwWrite_eq_lwGoP, heq] at h
  have hn : n = 0 + m := (congrArg (fun x => x.1) h).symm
  have he : e = e' := (congrArg (fun x => x.2.1) h).symm
  have hst : st' = st'' := (congrArg (fun x => x.2.2) h).symm
  subst he
  subst hst
  simp only [List.length_nil, List.nil_append, Nat.zero_add] at hn hm hcont himp
  subst hn
  refine ⟨hm, himp, ?_, hcont⟩
  intro hlt hne
  have := himp hne
  omega

theorem C2_witness :
    2 ≤ ([97, 10, 98] : List Nat).length ∧
    ((some (Err.sinkErr 5) : Option Err) = none → 2 = ([97, 10, 98] : List Nat).length) ∧
    (2 < ([97, 10, 98] : List Nat).length → (some (Err.sinkErr 5) : Option Err) ≠ none) ∧
    content ⟨⟨4096, [10], some (Err.sinkErr 5)⟩, ⟨[], [[97]]⟩⟩ =
      content (New ⟨[SinkResp.fail 1 5], []⟩) ++ ([97, 10, 98] : List Nat).take 2 :=
  C2_short_write_error (New ⟨[SinkResp.fail 1 5], []⟩) [97, 10, 98] 2
    (some (Err.sinkErr 5)) ⟨⟨4096, [10], some (Err.sinkErr 5)⟩, ⟨[], [[97]]⟩⟩ (by decide)

/-- C6: `Flush` is idempotent: with a healthy sink and no recorded error,
a second `Flush` right after a first one delivers no bytes to the sink,
changes nothing, and returns no error. -/
theorem C6_flush_idempotent (st : LWState)
    (hs : st.sink.script = []) (hb : st.buffer.err = none) :
    lwFlush (lwFlush st).2 = (none, (lwFlush st).2) := by
  obtain ⟨⟨cap, buf, berr⟩, ⟨scr, recv⟩⟩ := st
  have hb' : berr = none := hb
  subst hb'
  have hs' : scr = [] := hs
  subst hs'
  unfold lwFlush
  rw [bufioFlush_healthy ⟨cap, buf, none⟩ ⟨[], recv⟩ rfl rfl]
  simp only
  rw [bufioFlush_healthy ⟨cap, [], none⟩ _ rfl rfl]
  simp

theorem C6_witness :
    lwFlush (lwFlush ⟨⟨4096, [97], none⟩, ⟨[], []⟩⟩).2 =
      (none, (lwFlush (⟨⟨4096, [97], none⟩, ⟨[], []⟩⟩ : LWState)).2) :=
  C6_flush_idempotent ⟨⟨4096, [97], none⟩, ⟨[], []⟩⟩ rfl rfl

/-- C5: round-trip: writing any sequence of chunks and then flushing,
over a healthy sink, leaves the sink having received exactly the
concatenation of the chunks, unmodified and in order. -/
theorem C5_round_trip (chunks : List (List Nat)) :
    (lwFlush (foldWrites freshState chunks)).1 = none ∧
    (lwFlush (foldWrites freshState chunks)).2.sink.received.flatten = chunks.flatten := by
  obtain ⟨h1, h2, _, h4, _, _⟩ := foldWrites_healthy chunks freshState rfl rfl
  have hcont : content (foldWrites freshState chunks) = chunks.flatten := by
    rw [h4]
    simp [content, freshState, New]
  unfold lwFlush
  rw [bufioFlush_healthy _ _ h1 h2]
  refine ⟨rfl, ?_⟩
  simp only
  by_cases hbe : (foldWrites freshState chunks).buffer.buf.length = 0
  · have hnil : (foldWrites freshState chunks).buffer.buf = [] := List.length_eq_zero.mp hbe
    rw [if_pos hbe]
    rw [← hcont]
    simp [content, hnil]
  · rw [if_neg hbe]
    rw [List.flatten_append, ← hcont]
    simp [content]

/-- C4: for input without newlines on a fresh writer over a healthy sink:
if the input fits the 4096-byte capacity the sink receives nothing from
the `Write`, and in any case a subsequent `Flush` leaves the sink having
received exactly the input. -/
theorem C4_no_newline_buffered (p : List Nat) (recv0 : List (List Nat))
    (hnl : newline ∉ p) :
    (p.length ≤ 4096 →
      lwWrite (New ⟨[], recv0⟩) p = (p.length, none, ⟨⟨4096, p, none⟩, ⟨[], recv0⟩⟩)) ∧
    (lwFlush (lwWrite (New ⟨[], recv0⟩) p).2.2).1 = none ∧
    (lwFlush (lwWrite (New ⟨[], recv0⟩) p).2.2).2.sink.received.flatten =
      recv0.flatten ++ p := by
  refine ⟨?_, ?_⟩
  · intro hfit
    rw [lwWrite_eq_lwGoP]
    rw [lwGoP_split p [] 0 (New ⟨[], recv0⟩) rfl rfl rfl (List.not_mem_nil newline)
      (by rw [List.nil_append, splitLines_no_newline p hnl]; simpa using hfit)]
    rw [List.nil_append, splitLines_no_newline p hnl]
    simp [New]
  · obtain ⟨st', heq, _, herr, hscript, hcont, _⟩ :=
      lwWrite_healthy (New ⟨[], recv0⟩) p rfl rfl
    rw [heq]
    simp only
    unfold lwFlush
    rw [bufioFlush_healthy _ _ hscript herr]
    refine ⟨rfl, ?_⟩
    simp only
    have hcont' : content st' = recv0.flatten ++ p := by
      rw [hcont]
      simp [content, New]
    by_cases hbe : st'.buffer.buf.length = 0
    · have hnil : st'.buffer.buf = [] := List.length_eq_zero.mp hbe
      rw [if_pos hbe, ← hcont']
      simp [content, hnil]
    · rw [if_neg hbe]
      rw [List.flatten_append, ← hcont']
      simp [content]

theorem C4_witness :
    (([100, 101, 102] : List Nat).length ≤ 4096 →
      lwWrite (New ⟨[], [[97, 10]]⟩) [100, 101, 102] =
        (([100, 101, 102] : List Nat).length, none,
          ⟨⟨4096, [100, 101, 102], none⟩, ⟨[], [[97, 10]]⟩⟩)) ∧
    (lwFlush (lwWrite (New ⟨[], [[97, 10]]⟩) [100, 101, 102]).2.2).1 = none ∧
    (lwFlush (lwWrite (New ⟨[], [[97, 10]]⟩) [100, 101, 102]).2.2).2.sink.received.flatten =
      ([[97, 10]] : List (List Nat)).flatten ++ [100, 101, 102] :=
  C4_no_newline_buffered [100, 101, 102] [[97, 10]] (by decide)

/-- C1 (amended): over a healthy sink — equivalently, provided no earlier
call reported an error — after any sequence of `Write` calls (each of
which returns a `nil` error), every byte up to and including the last
newline of the cumulative stream has been forwarded to the sink, and the
remaining bytes are exactly what sits in the internal buffer. -/
theorem C1_last_newline_forwarded (chunks : List (List Nat)) :
    foldWritesOk freshState chunks = true ∧
    (foldWrites freshState chunks).sink.received.flatten ++
      (foldWrites freshState chunks).buffer.buf = chunks.flatten ∧
    (upToLastNL chunks.flatten).isPrefixOf
      (foldWrites freshState chunks).sink.received.flatten = true := by
  obtain ⟨_, _, _, h4, h5, h6⟩ := foldWrites_healthy chunks freshState rfl rfl
  have hcum : (foldWrites freshState chunks).sink.received.flatten ++
      (foldWrites freshState chunks).buffer.buf = chunks.flatten := by
    have := h4
    simpa [content, freshState, New] using this
  refine ⟨h6, hcum, ?_⟩
  have hnl : newline ∉ (foldWrites freshState chunks).buffer.buf :=
    h5 (by simp [freshState, New])
  rw [← hcum]
  exact upToLastNL_isPrefixOf _ _ hnl

/-- C1 (counterexample to the claim as stated): with a sink that fails on
its first write, `Write "a\n"` reports an error and forwards nothing, and
a subsequent `Write` of the empty sequence returns a `nil` error — yet
the bytes up to the last newline of the cumulative stream have not been
forwarded to the sink. -/
theorem C1_counterexample :
    (lwWrite (lwWrite (New ⟨[SinkResp.fail 0 7], []⟩) [97, 10]).2.2 []).2.1 = none ∧
    (upToLastNL ([97, 10] ++ ([] : List Nat))).isPrefixOf
      ((lwWrite (lwWrite (New ⟨[SinkResp.fail 0 7], []⟩) [97, 10]).2.2 []).2.2).sink.received.flatten
      = false := by decide

/-- C3 (amended): for input containing at least one newline, provided
the bytes after the final newline fit within the 4096-byte buffer
capacity, a `Write` on a fresh writer over a healthy sink succeeds, the
sink receives exactly the complete lines (of any length), in order, one
flush event per newline, and exactly the bytes after the final newline
remain buffered. -/
theorem C3_lines_flushed (p : List Nat) (recv0 : List (List Nat))
    (hnl : newline ∈ p)
    (htr : (splitLines p).2.length ≤ 4096) :
    lwWrite (New ⟨[], recv0⟩) p = (p.length, none,
      ⟨⟨4096, (splitLines p).2, none⟩, ⟨[], recv0 ++ (splitLines p).1⟩⟩) ∧
    (splitLines p).1.length = p.count newline := by
  refine ⟨?_, splitLines_length_count p⟩
  rw [lwWrite_eq_lwGoP]
  rw [lwGoP_split p [] 0 (New ⟨[], recv0⟩) rfl rfl rfl (List.not_mem_nil newline)
    (by rw [List.nil_append]; exact htr)]
  rw [List.nil_append]
  simp [New]

theorem C3_witness :
    lwWrite (New ⟨[], []⟩) [120, 10, 121, 10, 122] =
      (([120, 10, 121, 10, 122] : List Nat).length, none,
        ⟨⟨4096, (splitLines [120, 10, 121, 10, 122]).2, none⟩,
         ⟨[], [] ++ (splitLines [120, 10, 121, 10, 122]).1⟩⟩) ∧
    (splitLines [120, 10, 121, 10, 122]).1.length =
      ([120, 10, 121, 10, 122] : List Nat).count newline :=
  C3_lines_flushed [120, 10, 121, 10, 122] [] (by decide) (by decide)

/-- C3 (counterexample to the claim as stated): a successful `Write` of a
newline followed by 4097 non-newline bytes overflows the buffer capacity,
so the trailing bytes are passed through to the sink and the buffer ends
empty — not holding the 4097 bytes after the final newline. -/
theorem C3_counterexample :
    (lwWrite freshState (newline :: List.replicate 4097 97)).2.1 = none ∧
    ((lwWrite freshState (newline :: List.replicate 4097 97)).2.2).buffer.buf = [] ∧
    afterLastNL (newline :: List.replicate 4097 97) = List.replicate 4097 97 ∧
    List.replicate 4097 97 ≠ ([] : List Nat) := by
  have hall : ∀ b ∈ List.replicate 4097 97, ¬ b = newline := by
    intro b hb
    have := List.eq_of_mem_replicate hb
    subst this
    decide
  have hrepne : ¬ List.replicate 4097 97 = ([] : List Nat) := by
    intro h
    have h2 := congrArg List.length h
    rw [List.length_replicate, List.length_nil] at h2
    exact absurd h2 (by norm_num)
  have hbig : (⟨freshState.buffer.cap, [], none⟩ : BWriter).cap <
      (List.replicate 4097 97).length := by
    rw [List.length_replicate]
    show (4096 : Nat) < 4097
    norm_num
  have hmain : lwWrite freshState (newline :: List.replicate 4097 97) =
      (4098, none, ⟨⟨4096, [], none⟩, ⟨[], [[newline], List.replicate 4097 97]⟩⟩) := by
    rw [lwWrite_eq_lwGoP]
    show lwGoP (newline :: List.replicate 4097 97) [] 0 freshState = _
    unfold lwGoP
    rw [if_pos rfl]
    rw [show ([] : List Nat) ++ [newline] = [newline] from rfl]
    rw [passthrough_fit_flush freshState [newline] rfl rfl rfl (by decide) (by decide)]
    dsimp only
    rw [lwGoP_all_non_newline (List.replicate 4097 97) [] _ _ hall]
    rw [List.nil_append]
    show (if List.replicate 4097 97 = [] then _ else _) = _
    rw [if_neg hrepne]
    dsimp only
    unfold passthrough
    dsimp only
    rw [bufioWrite_direct ⟨freshState.buffer.cap, [], none⟩
      ⟨[], freshState.sink.received ++ [[newline]]⟩ (List.replicate 4097 97)
      rfl rfl rfl hbig]
    dsimp only
    rw [List.length_replicate]
    norm_num [freshState, New]
  refine ⟨by rw [hmain], by rw [hmain], ?_, hrepne⟩
  unfold afterLastNL
  rw [List.reverse_cons, List.reverse_replicate]
  rw [takeWhile_append_all (List.replicate 4097 97) [newline]
    (by
      intro x hx
      have := List.eq_of_mem_replicate hx
      subst this
      decide)]
  rw [show List.takeWhile (fun b => b != newline) [newline] = [] from rfl]
  rw [List.append_nil, List.reverse_replicate]

theorem bufioWriteGo_err (fuel : Nat) (b : BWriter) (s : SinkState) (p : List Nat)
    (nn : Nat) (e : Err) (hb : b.err = some e) :
    bufioWriteGo fuel b s p nn = (nn, some e, b, s) := by
  cases fuel with
  | zero =>
    rw [bufioWriteGo_zero]
    unfold bufioWriteDone
    rw [hb]
  | succ fuel =>
    rw [bufioWriteGo_succ]
    rw [if_neg (by
      intro hcc
      rw [hb] at hcc
      exact Option.noConfusion hcc.2)]
    unfold bufioWriteDone
    rw [hb]

/-- A write that overflows a non-empty buffer, against a sink whose next
response accepts nothing and fails: the buffer is topped up, the flush
fails, and the write reports only the bytes copied into the buffer. -/
theorem bufioWrite_copy_fail (b : BWriter) (s : SinkState) (p : List Nat) (c : Nat)
    (hb : b.err = none) (hscript : s.script = [SinkResp.fail 0 c])
    (hover : b.available < p.length) (hbufne : ¬ b.buf.length = 0) :
    bufioWrite b s p = (min b.available p.length, some (Err.sinkErr c),
      ⟨b.cap, b.buf ++ p.take (min b.available p.length), some (Err.sinkErr c)⟩,
      ⟨[], s.received ++ [[]]⟩) := by
  obtain ⟨cap, buf, berr⟩ := b
  obtain ⟨scr, recv⟩ := s
  have hb' : berr = none := hb
  subst hb'
  have hs' : scr = [SinkResp.fail 0 c] := hscript
  subst hs'
  unfold bufioWrite
  have h3 : p.length + 3 = (p.length + 2) + 1 := rfl
  rw [h3, bufioWriteGo_succ]
  rw [if_pos ⟨hover, rfl⟩, if_neg hbufne]
  simp only
  have hflush : bufioFlush
      ⟨cap, buf ++ p.take (min (BWriter.available ⟨cap, buf, none⟩) p.length), none⟩
      ⟨[SinkResp.fail 0 c], recv⟩ =
      (some (Err.sinkErr c),
        ⟨cap, buf ++ p.take (min (BWriter.available ⟨cap, buf, none⟩) p.length),
          some (Err.sinkErr c)⟩,
        ⟨[], recv ++ [[]]⟩) := by
    unfold bufioFlush
    have hbufne0 : ¬ buf.length = 0 := hbufne
    have hne : ¬ (buf ++ p.take (min (BWriter.available ⟨cap, buf, none⟩) p.length)).length
        = 0 := by
      rw [List.length_append]
      intro h
      exact hbufne0 (by omega)
    simp only [hne, if_neg, ite_false]
    rw [show sinkWrite ⟨[SinkResp.fail 0 c], recv⟩
        (buf ++ p.take (min (BWriter.available ⟨cap, buf, none⟩) p.length)) =
        (min 0 (buf ++ p.take (min (BWriter.available ⟨cap, buf, none⟩) p.length)).length,
          some (Err.sinkErr c),
          ⟨[], recv ++ [(buf ++ p.take (min (BWriter.available ⟨cap, buf, none⟩)
            p.length)).take (min 0 (buf ++ p.take (min (BWriter.available ⟨cap, buf, none⟩)
            p.length)).length)]⟩) from rfl]
    rw [Nat.zero_min]
    simp only [List.take_zero, List.drop_zero]
    rw [if_neg (by
      intro hcc
      exact Option.noConfusion hcc.2)]
  rw [hflush]
  simp only
  rw [bufioWriteGo_err _ _ _ _ _ _ rfl]
  rw [Nat.zero_add]

/-- C7 (amended): `WriteRune` encodes the code point into 1–4 UTF-8 bytes
and then behaves exactly as `Write` on that encoded sequence, returning
that `Write`'s count and error — the count equals the number of encoded
bytes whenever no error occurs, as with a healthy sink here; in
particular `WriteRune 'é'` on a fresh writer returns `(2, nil)` with the
two encoded bytes left in the buffer. -/
theorem C7_writerune_as_write (st : LWState) (r : Int)
    (hs : st.sink.script = []) (hb : st.buffer.err = none) :
    lwWriteRune st r = lwWrite st (encodeRune r) ∧
    1 ≤ (encodeRune r).length ∧ (encodeRune r).length ≤ 4 ∧
    (lwWriteRune st r).1 = (encodeRune r).length ∧ (lwWriteRune st r).2.1 = none ∧
    lwWriteRune freshState 233 = (2, none, ⟨⟨4096, [195, 169], none⟩, ⟨[], []⟩⟩) := by
  have hlen : 1 ≤ (encodeRune r).length ∧ (encodeRune r).length ≤ 4 := by
    unfold encodeRune
    dsimp only
    constructor <;> (split_ifs <;> simp)
  obtain ⟨st', heq, _, _, _, _, _⟩ := lwWrite_healthy st (encodeRune r) hs hb
  have hrw : lwWriteRune st r = lwWrite st (encodeRune r) := rfl
  refine ⟨hrw, hlen.1, hlen.2, ?_, ?_, by decide⟩
  · rw [hrw, heq]
  · rw [hrw, heq]

theorem C7_witness :
    lwWriteRune freshState 233 = lwWrite freshState (encodeRune 233) ∧
    1 ≤ (encodeRune 233).length ∧ (encodeRune 233).length ≤ 4 ∧
    (lwWriteRune freshState 233).1 = (encodeRune 233).length ∧
    (lwWriteRune freshState 233).2.1 = none ∧
    lwWriteRune freshState 233 = (2, none, ⟨⟨4096, [195, 169], none⟩, ⟨[], []⟩⟩) :=
  C7_writerune_as_write freshState 233 rfl rfl

/-- C7 (counterexample to the claim as stated): after writing 4095 bytes
into the buffer of a writer whose sink fails its first write accepting
nothing, `WriteRune 'é'` returns 1 — the single byte copied into the
buffer before the capacity-triggered flush failed — not the 2 bytes of
the encoding. -/
theorem C7_counterexample :
    (lwWriteRune (lwWrite (New ⟨[SinkResp.fail 0 7], []⟩)
      (List.replicate 4095 97)).2.2 233).1 = 1 ∧
    (encodeRune 233).length = 2 ∧
    (lwWriteRune (lwWrite (New ⟨[SinkResp.fail 0 7], []⟩)
      (List.replicate 4095 97)).2.2 233).2.1 = some (Err.sinkErr 7) := by
  have h97 : ∀ b ∈ List.replicate 4095 97, ¬ b = newline := by
    intro b hb
    have := List.eq_of_mem_replicate hb
    subst this
    decide
  have hrepne : ¬ List.replicate 4095 97 = ([] : List Nat) := by
    intro h
    have h2 := congrArg List.length h
    rw [List.length_replicate, List.length_nil] at h2
    exact absurd h2 (by norm_num)
  have hst1 : lwWrite (New ⟨[SinkResp.fail 0 7], []⟩) (List.replicate 4095 97) =
      ((List.replicate 4095 97).length, none,
        ⟨⟨4096, List.replicate 4095 97, none⟩, ⟨[SinkResp.fail 0 7], []⟩⟩) := by
    rw [lwWrite_eq_lwGoP]
    rw [lwGoP_all_non_newline (List.replicate 4095 97) [] 0 _ h97]
    rw [List.nil_append]
    show (if List.replicate 4095 97 = [] then _ else _) = _
    rw [if_neg hrepne]
    dsimp only
    rw [passthrough_fit_nof (New ⟨[SinkResp.fail 0 7], []⟩) (List.replicate 4095 97) rfl
      (by rw [List.length_replicate]; decide)]
    dsimp only [New]
    rw [Nat.zero_add, List.nil_append]
  have henc : encodeRune 233 = [195, 169] := by decide
  have hover : (⟨4096, List.replicate 4095 97, none⟩ : BWriter).available <
      ([195, 169] : List Nat).length := by
    unfold BWriter.available
    dsimp only
    rw [List.length_replicate]
    norm_num
  have hbufne : ¬ (⟨4096, List.replicate 4095 97, none⟩ : BWriter).buf.length = 0 := by
    show ¬ (List.replicate 4095 97).length = 0
    rw [List.length_replicate]
    norm_num
  have hmin : min (⟨4096, List.replicate 4095 97, none⟩ : BWriter).available
      ([195, 169] : List Nat).length = 1 := by
    unfold BWriter.available
    dsimp only
    rw [List.length_replicate]
    norm_num
  have hmain : lwWriteRune (lwWrite (New ⟨[SinkResp.fail 0 7], []⟩)
      (List.replicate 4095 97)).2.2 233 =
      (1, some (Err.sinkErr 7),
        ⟨⟨4096, List.replicate 4095 97 ++ [195], some (Err.sinkErr 7)⟩, ⟨[], [[]]⟩⟩) := by
    have hrw : lwWriteRune (lwWrite (New ⟨[SinkResp.fail 0 7], []⟩)
        (List.replicate 4095 97)).2.2 233 =
        lwWrite (lwWrite (New ⟨[SinkResp.fail 0 7], []⟩)
          (List.replicate 4095 97)).2.2 (encodeRune 233) := rfl
    rw [hrw, henc, hst1]
    dsimp only
    rw [lwWrite_eq_lwGoP]
    rw [lwGoP_all_non_newline [195, 169] [] 0 _ (by decide)]
    rw [List.nil_append]
    show (if ([195, 169] : List Nat) = [] then _ else _) = _
    rw [if_neg (by decide)]
    dsimp only
    unfold passthrough
    dsimp only
    rw [bufioWrite_copy_fail ⟨4096, List.replicate 4095 97, none⟩ ⟨[SinkResp.fail 0 7], []⟩
      [195, 169] 7 rfl rfl hover hbufne]
    rw [hmin]
    dsimp only
    rw [Nat.zero_add]
    rfl
  exact ⟨by rw [hmain], by rw [henc]; rfl, by rw [hmain]⟩

/-- C10: every invalid code point — a surrogate, a negative value, or a
value above U+10FFFF (within the 32-bit rune range) — is encoded by
`WriteRune` as the 3-byte UTF-8 form of the replacement character U+FFFD,
and with a healthy sink the call returns `(3, nil)`. -/
theorem C10_invalid_rune_replacement (st : LWState) (r : Int)
    (hs : st.sink.script = []) (hb : st.buffer.err = none)
    (hlo : -2147483648 ≤ r) (hhi : r < 2147483648)
    (hinv : r < 0 ∨ 1114111 < r ∨ (55296 ≤ r ∧ r ≤ 57343)) :
    encodeRune r = [0xEF, 0xBF, 0xBD] ∧
    (lwWriteRune st r).1 = 3 ∧ (lwWriteRune st r).2.1 = none := by
  have hkey : 0x10FFFF < (r % 4294967296).toNat ∨
      (0xD800 ≤ (r % 4294967296).toNat ∧ (r % 4294967296).toNat ≤ 0xDFFF) := by
    rcases hinv with h | h | h
    · left
      omega
    · left
      omega
    · right
      omega
  have h1 : ¬ (r % 4294967296).toNat ≤ 0x7F := by
    rcases hkey with h | h <;> omega
  have h2 : ¬ (r % 4294967296).toNat ≤ 0x7FF := by
    rcases hkey with h | h <;> omega
  have henc : encodeRune r = [0xEF, 0xBF, 0xBD] := by
    simp only [encodeRune]
    rw [if_neg h1, if_neg h2, if_pos hkey]
  obtain ⟨st', heq, _, _, _, _, _⟩ := lwWrite_healthy st (encodeRune r) hs hb
  have hrw : lwWriteRune st r = lwWrite st (encodeRune r) := rfl
  refine ⟨henc, ?_, ?_⟩
  · rw [hrw, heq, henc]
    rfl
  · rw [hrw, heq]

theorem C10_witness :
    encodeRune (-1) = [0xEF, 0xBF, 0xBD] ∧
    (lwWriteRune freshState (-1)).1 = 3 ∧ (lwWriteRune freshState (-1)).2.1 = none :=
  C10_invalid_rune_replacement freshState (-1) rfl rfl (by norm_num) (by norm_num)
    (Or.inl (by norm_num))
